/-
Verification of the VoxelEngine chunk generation and streaming pipeline.

Shallow embedding of the relevant Rust sources:
  * src/voxgen/src/world/chunk.rs   (Chunk::generate, Chunk::is_pos_in_bounds,
                                     ChunkPos, compute_1d, ChunkMesh)
  * src/voxgen/src/renderer/world.rs (WorldRenderer streaming state:
                                     on_update, unload_chunks, load_chunks,
                                     load_initial_chunks, RENDER_DISTANCE)
  * src/src/renderer/mod.rs          (create_quad_index_buffer index pattern)

Machine integers (i32, u32, usize) are embedded as Int/Nat: all arithmetic in
the verified fragment stays far from the 32-bit overflow boundary, and the spec
speaks about mathematical integers.  f32 world positions are embedded as exact
rationals (ℚ): the float computations involved (multiplication by 16, division
by 16, floor) are exact on the coordinate ranges of interest.

Parts of the repository referenced by the code but not present under src/
(direction.rs, mesh/quad.rs, renderer/buffer.rs) are modelled from the spec;
each such definition carries a doc comment saying so.
-/
import Mathlib

set_option autoImplicit false
set_option maxRecDepth 100000

namespace VoxelEngine

/-- `CHUNK_HEIGHT` from src/voxgen/src/world/chunk.rs. -/
def CHUNK_HEIGHT : Nat := 256

/-- `CHUNK_DEPTH` from src/voxgen/src/world/chunk.rs. -/
def CHUNK_DEPTH : Nat := 16

/-- `CHUNK_WIDTH` from src/voxgen/src/world/chunk.rs. -/
def CHUNK_WIDTH : Nat := 16

/-- `TOTAL_CHUNK_SIZE = CHUNK_WIDTH * CHUNK_HEIGHT * CHUNK_DEPTH`. -/
def TOTAL_CHUNK_SIZE : Nat := CHUNK_WIDTH * CHUNK_HEIGHT * CHUNK_DEPTH

/-- `RENDER_DISTANCE` from src/voxgen/src/renderer/world.rs (an `i32`). -/
def RENDER_DISTANCE : Int := 4

/-- `vek::Vec3<i32>`: an integer 3-vector, used for local positions and
world translations. -/
structure V3 where
  x : Int
  y : Int
  z : Int
deriving DecidableEq, Repr

/-- Component-wise addition of `Vec3<i32>` (the `+` used on `local_pos +
dir.normalized()` in Chunk::generate). -/
def V3.add (a b : V3) : V3 := ⟨a.x + b.x, a.y + b.y, a.z + b.z⟩

instance : Add V3 := ⟨V3.add⟩

/-- `vek::Vec3<f32>` world positions, embedded with exact rational
coordinates. -/
structure WVec where
  x : ℚ
  y : ℚ
  z : ℚ

/-- `BlockId` from src/src/block.rs. -/
inductive BlockId where
  | AIR
  | DIRT
  | GRASS
  | STONE
deriving DecidableEq, Repr

/-- Modelled from the spec: `Direction` (src/voxgen/src/direction.rs is not
under src/).  §3: "one of six unit axis vectors (±X, ±Y, ±Z).  A fixed,
ordered set of 6". -/
inductive Direction where
  | Up
  | Down
  | Left
  | Right
  | Front
  | Back
deriving DecidableEq, Repr

/-- Modelled from the spec: `Direction::normalized()` returns the unit
integer vector of the direction (§4.1). -/
def Direction.normalized : Direction → V3
  | .Up => ⟨0, 1, 0⟩
  | .Down => ⟨0, -1, 0⟩
  | .Left => ⟨-1, 0, 0⟩
  | .Right => ⟨1, 0, 0⟩
  | .Front => ⟨0, 0, 1⟩
  | .Back => ⟨0, 0, -1⟩

/-- Modelled from the spec: `Direction::ALL`, the fixed ordered array of the
six face directions (§4.1). -/
def Direction.ALL : List Direction :=
  [.Up, .Down, .Left, .Right, .Front, .Back]

/-- `ChunkPos` from src/voxgen/src/world/chunk.rs: integer (x, z) chunk-grid
coordinates. -/
structure ChunkPos where
  x : Int
  z : Int
deriving DecidableEq, Repr

/-- `impl Sub for ChunkPos`: component-wise subtraction. -/
def ChunkPos.sub (a b : ChunkPos) : ChunkPos := ⟨a.x - b.x, a.z - b.z⟩

instance : Sub ChunkPos := ⟨ChunkPos.sub⟩

/-- `ChunkPos::new`. -/
def ChunkPos.new (x z : Int) : ChunkPos := ⟨x, z⟩

/-- `ChunkPos::ORIGIN`. -/
def ChunkPos.ORIGIN : ChunkPos := ChunkPos.new 0 0

/-- `ChunkPos::to_world`: the world-space origin corner of the chunk,
`(x * CHUNK_WIDTH, 0, z * CHUNK_DEPTH)`. -/
def ChunkPos.to_world (p : ChunkPos) : V3 :=
  ⟨p.x * (CHUNK_WIDTH : Int), 0, p.z * (CHUNK_DEPTH : Int)⟩

/-- `ChunkPos::from_world`: floor of the component-wise division of the world
position by the chunk width/depth. -/
def ChunkPos.from_world (pos : WVec) : ChunkPos :=
  ⟨⌊pos.x / (CHUNK_WIDTH : ℚ)⌋, ⌊pos.z / (CHUNK_DEPTH : ℚ)⌋⟩

/-- Modelled from the spec: the `i32` → `f32` cast used by §8's
`p.to_world().as_float()` (vek's `Vec3::as_`, not under src/), with IEEE-754
binary32 round-to-nearest-even semantics.  An `i32` whose magnitude is at
most `2^24` is exactly representable; a larger one is rounded to its top 24
significant bits (granularity `2^(bits - 24)`, ties to the even
significand).  The result of casting an `i32` is always an integer-valued
float, so the model returns an `Int`.  The rounding granularity is
`2^(bits - 24)` with `bits` the bit length of `|n|`; since an `i32` has bit
length at most 31, the granularity exponent is written out as explicit
comparisons (which the kernel can evaluate). -/
def f32OfInt (n : Int) : Int :=
  if n.natAbs ≤ 2 ^ 24 then n
  else
    let a : Nat := n.natAbs
    let e : Nat := if a < 2 ^ 25 then 1 else if a < 2 ^ 26 then 2
      else if a < 2 ^ 27 then 3 else if a < 2 ^ 28 then 4 else if a < 2 ^ 29 then 5
      else if a < 2 ^ 30 then 6 else 7
    let q : Nat := a / 2 ^ e
    let r : Nat := a % 2 ^ e
    let q' : Nat := if r < 2 ^ (e - 1) then q
      else if 2 ^ (e - 1) < r then q + 1
      else if q % 2 = 0 then q else q + 1
    let v : Int := ((q' * 2 ^ e : Nat) : Int)
    if n < 0 then -v else v

/-- The `as f32` cast of the `i32` world vector, component-wise
round-to-nearest-even (`f32OfInt`); the coordinates of the result are the
exact rational values of the produced floats. -/
def V3.asFloat (v : V3) : WVec :=
  ⟨((f32OfInt v.x : Int) : ℚ), ((f32OfInt v.y : Int) : ℚ), ((f32OfInt v.z : Int) : ℚ)⟩

/-- Round a rational to the nearest integer, ties to even (the IEEE-754
default rounding used on the subnormal grid). -/
def roundHalfEvenInt (x : ℚ) : Int :=
  let f := ⌊x⌋
  if x - (f : ℚ) < 1 / 2 then f
  else if (1 : ℚ) / 2 < x - (f : ℚ) then f + 1
  else if f % 2 = 0 then f else f + 1

/-- Binary32 division by `CHUNK_WIDTH = CHUNK_DEPTH = 16` of an f32 value
`q`: dividing by `16` only lowers the exponent by 4, so the quotient is
exact whenever it stays at or above the smallest normal magnitude
`2^(-126)`; below that the quotient is rounded to the subnormal grid of
multiples of `2^(-149)`, nearest, ties to even.  (The test
`|q| * 2^126 < 16` is `|q / 16| < 2^(-126)`, and
`q * 2^149 / 16` is the quotient scaled onto the subnormal grid.) -/
def f32Div16 (q : ℚ) : ℚ :=
  if |q| * 2 ^ 126 < 16 then
    ((roundHalfEvenInt (q * 2 ^ 149 / 16) : Int) : ℚ) / 2 ^ 149
  else q / 16

/-- `ChunkPos::from_world` with binary32 semantics: the `f32` division by
`CHUNK_WIDTH`/`CHUNK_DEPTH` is `f32Div16`; `.floor()` of a representable
value and the in-range `as i32` cast (with `-0.0` collapsing to `0`) are
exact and are absorbed into the rational floor. -/
def ChunkPos.from_world_f32 (pos : WVec) : ChunkPos :=
  ⟨⌊f32Div16 pos.x⌋, ⌊f32Div16 pos.z⌋⟩

/-- `q` is an integer multiple of `2^(-145)` with a 24-bit significand: a
binary32 value whose quotient by 16 is still on the binary32 grid
(exponent at least `-145`), so the f32 division by 16 is exact at `q`. -/
def IsExactF32Div16 (q : ℚ) : Prop :=
  ∃ m : Int, ∃ e : Nat, |m| < 2 ^ 24 ∧ q * 2 ^ 145 = ((m * 2 ^ e : Int) : ℚ)

/-- `compute_1d` from src/voxgen/src/world/chunk.rs:
`x + y * CHUNK_WIDTH + z * CHUNK_WIDTH * CHUNK_HEIGHT`. -/
def compute_1d (x y z : Nat) : Nat :=
  x + y * CHUNK_WIDTH + z * CHUNK_WIDTH * CHUNK_HEIGHT

/-- `Chunk::is_pos_in_bounds` from src/voxgen/src/world/chunk.rs. -/
def Chunk.is_pos_in_bounds (pos : V3) : Bool :=
  if 0 ≤ pos.x ∧ 0 ≤ pos.y ∧ 0 ≤ pos.z then
    decide (pos.x < (CHUNK_WIDTH : Int)) &&
      decide (pos.y < (CHUNK_HEIGHT : Int)) &&
      decide (pos.z < (CHUNK_DEPTH : Int))
  else
    false

/-- Modelled from the spec: `Quad` (src/voxgen/src/renderer/mesh/quad.rs is
not under src/).  §3: "four vertices describing one visible face of one
block"; §4.2: `Quad::new(block, direction, world_translation)` is pure data
construction, fully determined by its three arguments. -/
structure Quad where
  block : BlockId
  dir : Direction
  translation : V3
deriving DecidableEq, Repr

/-- Modelled from the spec: a mesh vertex.  §4.2: each of the four vertices
of a quad is a pure function of the quad's (block, direction, translation)
and its corner index; the numeric corner offsets and atlas UVs live in files
not under src/ and are abstracted into the corner selector. -/
structure Vertex where
  corner : Fin 4
  block : BlockId
  dir : Direction
  translation : V3
deriving DecidableEq, Repr

/-- `Quad::new` (modelled from the spec, §4.2). -/
def Quad.new (block : BlockId) (dir : Direction) (translation : V3) : Quad :=
  ⟨block, dir, translation⟩

/-- Modelled from the spec: the four vertices of a quad, in corner order
(§4.2: "produces exactly 4 vertices"). -/
def Quad.vertices (q : Quad) : List Vertex :=
  [⟨0, q.block, q.dir, q.translation⟩, ⟨1, q.block, q.dir, q.translation⟩,
   ⟨2, q.block, q.dir, q.translation⟩, ⟨3, q.block, q.dir, q.translation⟩]

/-- Modelled from the spec (§4.4) and from `create_quad_index_buffer` in
src/src/renderer/mod.rs, which instantiates the same algorithm at the fixed
vertex count 24: cycle the local pattern `[0,1,2,2,1,3]`, take
`vertex_count / 4 * 6` elements, and offset each element by `4 * (i / 6)`.
The definition of `compute_cube_indices` itself
(src/voxgen/src/renderer/buffer.rs) is not under src/. -/
def compute_cube_indices (vertex_count : Nat) : List Nat :=
  (List.range (vertex_count / 4 * 6)).map
    (fun i => i / 6 * 4 + [0, 1, 2, 2, 1, 3].getD (i % 6) 0)

/-- `ChunkMesh` from src/voxgen/src/world/chunk.rs: flat vertex and index
arrays plus the element count. -/
structure ChunkMesh where
  vertices : List Vertex
  indices : List Nat
  num_elements : Nat
deriving DecidableEq, Repr

/-- `ChunkMesh::new`: `num_elements` is the index count. -/
def ChunkMesh.new (vertices : List Vertex) (indices : List Nat) : ChunkMesh :=
  ⟨vertices, indices, indices.length⟩

/-- The local-coordinate decode inside `Chunk::generate`:
`x = index % CHUNK_WIDTH`, `y = (index / CHUNK_WIDTH) % CHUNK_HEIGHT`,
`z = (index / (CHUNK_WIDTH * CHUNK_HEIGHT)) % CHUNK_DEPTH`
(`local_pos` in the source). -/
def localPosOf (index : Nat) : V3 :=
  ⟨((index % CHUNK_WIDTH : Nat) : Int),
   (((index / CHUNK_WIDTH) % CHUNK_HEIGHT : Nat) : Int),
   (((index / (CHUNK_WIDTH * CHUNK_HEIGHT)) % CHUNK_DEPTH : Nat) : Int)⟩

/-- `block_in_chunk` inside `Chunk::generate`: GRASS on the topmost layer
(`y == CHUNK_HEIGHT - 1`), DIRT otherwise. -/
def blockAt (index : Nat) : BlockId :=
  if (index / CHUNK_WIDTH) % CHUNK_HEIGHT = CHUNK_HEIGHT - 1 then .GRASS else .DIRT

/-- `translation` inside `Chunk::generate`: local position offset by the
chunk's world origin in x and z. -/
def translationOf (pos : ChunkPos) (index : Nat) : V3 :=
  let local_pos := localPosOf index
  let world_pos := pos.to_world
  ⟨local_pos.x + world_pos.x, local_pos.y, local_pos.z + world_pos.z⟩

/-- `visible_quads` inside `Chunk::generate`: for each direction in
`Direction::ALL`, in order, push a quad exactly when the neighbour position
`local_pos + dir.normalized()` is out of chunk bounds. -/
def visibleQuads (pos : ChunkPos) (index : Nat) : List Quad :=
  Direction.ALL.filterMap (fun dir =>
    if Chunk.is_pos_in_bounds (localPosOf index + dir.normalized) then none
    else some (Quad.new (blockAt index) dir (translationOf pos index)))

/-- The per-cell tuple `(index, visible_quads, block_in_chunk)` produced by
the parallel map inside `Chunk::generate`.  Rayon's `collect` on an indexed
parallel iterator is order-preserving, so the parallel map over the cell
range is embedded as a map over `List.range` in ascending index order. -/
def cellResult (pos : ChunkPos) (index : Nat) : Nat × List Quad × BlockId :=
  (index, visibleQuads pos index, blockAt index)

/-- The sequential fan-in loop of `Chunk::generate`: for each cell, for each
of its visible quads, write `block` at `blocks[index]` and append the quad's
four vertices. -/
def foldCell (acc : List BlockId × List Vertex) (cell : Nat × List Quad × BlockId) :
    List BlockId × List Vertex :=
  cell.2.1.foldl (fun a q => (a.1.set cell.1 cell.2.2, a.2 ++ q.vertices)) acc

/-- The accumulated (block array, vertex list) state of `Chunk::generate`:
the block array starts as all DIRT, the per-cell results (`verts` in the
source, computed in parallel with ascending-index order preserved by
`collect`) are folded in sequentially. -/
def generateAcc (pos : ChunkPos) : List BlockId × List Vertex :=
  ((List.range TOTAL_CHUNK_SIZE).map (cellResult pos)).foldl foldCell
    (List.replicate TOTAL_CHUNK_SIZE BlockId.DIRT, [])

/-- `Chunk::generate` from src/voxgen/src/world/chunk.rs: fold the per-cell
results into the block array and vertex list, then derive the index array
from the final vertex count. -/
def Chunk.generate (pos : ChunkPos) : List BlockId × ChunkMesh :=
  let acc := generateAcc pos
  let indices := compute_cube_indices acc.2.length
  (acc.1, ChunkMesh.new acc.2 indices)

/-- The streaming-relevant projection of `Chunk`
(src/voxgen/src/world/chunk.rs): its chunk-grid position (the field the
streaming code reads as `world_offset`) and the `loaded` flag.  The block
array, mesh and GPU buffer of a full `Chunk` are produced by
`Chunk.generate`/the GPU boundary and are never read by the streaming logic
in src/voxgen/src/renderer/world.rs, so they are omitted from the streaming
state. -/
structure Chunk where
  pos : ChunkPos
  loaded : Bool
deriving DecidableEq, Repr

/-- `Chunk::new`: a freshly generated chunk at `pos` with `loaded: true`
(streaming projection; block/mesh generation and buffer upload omitted). -/
def Chunk.new (pos : ChunkPos) : Chunk := ⟨pos, true⟩

/-- The streaming state of `WorldRenderer`
(src/voxgen/src/renderer/world.rs): the chunk list and the loaded-position
set (`HashSet<ChunkPos>`, embedded as a `Finset`). -/
structure WorldState where
  chunks : List Chunk
  chunks_pos : Finset ChunkPos

/-- The eviction test inside `WorldRenderer::on_update`: squared planar
chunk-grid distance to the player's chunk strictly exceeds
`RENDER_DISTANCE * RENDER_DISTANCE`. -/
def outOfRange (player_chunk_pos : ChunkPos) (c : Chunk) : Bool :=
  let distance := c.pos - player_chunk_pos
  decide (RENDER_DISTANCE * RENDER_DISTANCE <
    distance.x * distance.x + distance.z * distance.z)

/-- The per-chunk marking of `WorldRenderer::on_update`: a chunk out of
range gets `loaded = false`, others are untouched. -/
def markChunk (player_chunk_pos : ChunkPos) (c : Chunk) : Chunk :=
  if outOfRange player_chunk_pos c then { c with loaded := false } else c

/-- The marking loop of `WorldRenderer::on_update` (lines 84-92): every
chunk out of range gets `loaded = false` and its position is removed from
the loaded-position set. -/
def WorldState.evictFar (player_chunk_pos : ChunkPos) (s : WorldState) : WorldState :=
  ⟨s.chunks.map (markChunk player_chunk_pos),
   s.chunks.foldl (fun t c =>
      if outOfRange player_chunk_pos c then t.erase c.pos else t) s.chunks_pos⟩

/-- `WorldRenderer::unload_chunks`: retain only loaded chunks, removing the
position of every non-loaded chunk from the set as it is dropped. -/
def WorldState.unload_chunks (s : WorldState) : WorldState :=
  ⟨s.chunks.filter (fun c => c.loaded),
   s.chunks.foldl (fun t c => if !c.loaded then t.erase c.pos else t) s.chunks_pos⟩

/-- The inclusive integer range `lo..=hi` (empty when `hi < lo`). -/
def intRangeIncl (lo hi : Int) : List Int :=
  (List.range (hi + 1 - lo).toNat).map (fun (i : Nat) => lo + (i : Int))

/-- The window enumeration of `WorldRenderer::load_chunks`: with
`distance = RENDER_DISTANCE / 2`, all positions `(x, z)` with
`z ∈ start_z..=end_z` (outer) and `x ∈ start_x..=end_x` (inner). -/
def windowList (player_pos : ChunkPos) : List ChunkPos :=
  let distance := RENDER_DISTANCE / 2
  (intRangeIncl (player_pos.z - distance) (player_pos.z + distance)).flatMap (fun z =>
    (intRangeIncl (player_pos.x - distance) (player_pos.x + distance)).map (fun x =>
      ChunkPos.new x z))

/-- `new_positions` inside `WorldRenderer::load_chunks`: the window
positions not already present in the loaded-position set. -/
def newPositions (player_pos : ChunkPos) (s : WorldState) : List ChunkPos :=
  (windowList player_pos).filter (fun p => decide (p ∉ s.chunks_pos))

/-- `WorldRenderer::load_chunks`: generate a chunk for every new position
and merge the new positions and chunks into the tracked state. -/
def WorldState.load_chunks (player_pos : ChunkPos) (s : WorldState) : WorldState :=
  ⟨s.chunks ++ (newPositions player_pos s).map Chunk.new,
   (newPositions player_pos s).foldl (fun t p => insert p t) s.chunks_pos⟩

/-- `WorldRenderer::on_update`: convert the player world position to a
chunk position, mark and remove out-of-range chunks, and if any chunk was
marked (`dirty`), evict them and load the newly needed window. -/
def WorldState.on_update (player_pos : WVec) (s : WorldState) : WorldState :=
  let player_chunk_pos := ChunkPos.from_world player_pos
  let dirty := s.chunks.any (outOfRange player_chunk_pos)
  let s1 := s.evictFar player_chunk_pos
  if dirty then (s1.unload_chunks).load_chunks player_chunk_pos else s1

/-- The enumeration of `WorldRenderer::load_initial_chunks`: all positions
`(x, z)` with `x ∈ -RENDER_DISTANCE..=RENDER_DISTANCE` (outer) and
`z ∈ -RENDER_DISTANCE..=RENDER_DISTANCE` (inner). -/
def initialWindowList : List ChunkPos :=
  (intRangeIncl (-RENDER_DISTANCE) RENDER_DISTANCE).flatMap (fun x =>
    (intRangeIncl (-RENDER_DISTANCE) RENDER_DISTANCE).map (fun z =>
      ChunkPos.new x z))

/-- `WorldRenderer::load_initial_chunks`: for every position of the initial
enumeration, insert it into the position set and push a freshly generated
chunk. -/
def WorldState.load_initial_chunks (s : WorldState) : WorldState :=
  ⟨s.chunks ++ initialWindowList.map Chunk.new,
   initialWindowList.foldl (fun t p => insert p t) s.chunks_pos⟩

/-- The state right after `WorldRenderer::new`: empty chunk list and
position set, then `load_initial_chunks`. -/
def WorldState.initial : WorldState :=
  WorldState.load_initial_chunks ⟨[], ∅⟩

/-- The vertex contribution of one cell in `Chunk::generate`: the
concatenated vertices of its visible quads, in quad order. -/
def cellVertices (pos : ChunkPos) (index : Nat) : List Vertex :=
  ((visibleQuads pos index).map Quad.vertices).flatten

/-- The streaming bookkeeping invariant maintained by `WorldRenderer`
between updates: chunk positions are pairwise distinct, every chunk in the
list is loaded, and the loaded-position set is exactly the set of chunk
positions. -/
def StrongInv (s : WorldState) : Prop :=
  (s.chunks.map Chunk.pos).Nodup ∧
  (∀ c ∈ s.chunks, c.loaded = true) ∧
  s.chunks_pos = (s.chunks.map Chunk.pos).toFinset

/-- The loaded-set/chunk-list correspondence stated by the spec (§3): every
position in the set has exactly one loaded chunk at that position, and
every loaded chunk's position is in the set. -/
def SyncInv (s : WorldState) : Prop :=
  (∀ p ∈ s.chunks_pos,
    (s.chunks.filter (fun c => c.loaded && decide (c.pos = p))).length = 1) ∧
  (∀ c ∈ s.chunks, c.loaded = true → c.pos ∈ s.chunks_pos)

/-- `StrongInv` is decidable, so concrete states can be checked by
evaluation. -/
instance (s : WorldState) : Decidable (StrongInv s) :=
  inferInstanceAs (Decidable (_ ∧ _ ∧ _))

/-- A sequence of `on_update` calls with the given player world
positions. -/
def applyUpdates (updates : List WVec) (s : WorldState) : WorldState :=
  updates.foldl (fun s p => WorldState.on_update p s) s

/-! ### C7: the index builder pattern -/

/-- C7: given a vertex count that is a multiple of 4, the index builder
returns `vertex_count / 4 * 6` indices following the repeating pattern
`[0,1,2,2,1,3]` offset by `4 * quad_index` for each quad; concretely,
`compute_cube_indices 4 = [0,1,2,2,1,3]` and
`compute_cube_indices 8 = [0,1,2,2,1,3,4,5,6,6,5,7]`. -/
theorem compute_cube_indices_spec :
    compute_cube_indices 4 = [0, 1, 2, 2, 1, 3] ∧
    compute_cube_indices 8 = [0, 1, 2, 2, 1, 3, 4, 5, 6, 6, 5, 7] ∧
    ∀ vertex_count : Nat, vertex_count % 4 = 0 →
      (compute_cube_indices vertex_count).length = vertex_count / 4 * 6 ∧
      ∀ i : Nat, i < vertex_count / 4 * 6 →
        (compute_cube_indices vertex_count)[i]? =
          some (4 * (i / 6) + [0, 1, 2, 2, 1, 3].getD (i % 6) 0) := by
  refine ⟨by decide, by decide, fun n _ => ⟨by simp [compute_cube_indices], ?_⟩⟩
  intro i hi
  simp only [compute_cube_indices, List.getElem?_map, List.getElem?_range, hi]
  simp [Nat.mul_comm]

/-- Witness for C7 at vertex count 12 (hypothesis `12 % 4 = 0` discharged by
`decide`). -/
theorem compute_cube_indices_spec_witness :
    (compute_cube_indices 12).length = 12 / 4 * 6 :=
  (compute_cube_indices_spec.2.2 12 (by decide)).1

/-! ### C8: ChunkPos/world round trip -/

/-- Rounding an integer-valued rational to the nearest integer is the
identity. -/
theorem roundHalfEvenInt_intCast (k : Int) : roundHalfEvenInt ((k : Int) : ℚ) = k := by
  rw [roundHalfEvenInt]
  rw [Int.floor_intCast, sub_self]
  rw [if_pos (by norm_num)]

/-- The binary32 division by 16 is exact on values whose quotient is still
on the binary32 grid. -/
theorem f32Div16_exact (q : ℚ) (h : IsExactF32Div16 q) : f32Div16 q = q / 16 := by
  obtain ⟨m, e, _, hq⟩ := h
  rw [f32Div16]
  split
  · have h149 : q * 2 ^ 149 / 16 = q * 2 ^ 145 := by
      rw [show (2 : ℚ) ^ 149 = 2 ^ 145 * 16 by norm_num]
      ring
    rw [h149, hq, roundHalfEvenInt_intCast, ← hq]
    rw [show (2 : ℚ) ^ 149 = 2 ^ 145 * 16 by norm_num]
    rw [show q * 2 ^ 145 / ((2 : ℚ) ^ 145 * 16) = q / 16 * (2 ^ 145 / 2 ^ 145) by ring]
    norm_num
  · rfl

/-- C8 counterexample: the claim as stated fails at `p = (2^24 + 1, 0)`.
The world origin `(2^24 + 1) * 16 = 268435472` is not representable in f32
and the cast rounds it to `2^28 = 268435456` (ties-to-even at half an ulp
of 32), so the round trip returns `(2^24, 0) ≠ p`. -/
theorem chunkpos_roundtrip_counterexample :
    ChunkPos.from_world_f32 (V3.asFloat ((ChunkPos.new (2 ^ 24 + 1) 0).to_world)) =
      ChunkPos.new (2 ^ 24) 0 ∧
    ChunkPos.new (2 ^ 24) 0 ≠ ChunkPos.new (2 ^ 24 + 1) 0 := by
  constructor
  · show ChunkPos.mk
        ⌊f32Div16 ((f32OfInt ((ChunkPos.new (2 ^ 24 + 1) 0).to_world).x : Int) : ℚ)⌋
        ⌊f32Div16 ((f32OfInt ((ChunkPos.new (2 ^ 24 + 1) 0).to_world).z : Int) : ℚ)⌋ =
      ChunkPos.new (2 ^ 24) 0
    have hcx : f32OfInt ((ChunkPos.new (2 ^ 24 + 1) 0).to_world).x = 268435456 := by
      decide
    have hcz : f32OfInt ((ChunkPos.new (2 ^ 24 + 1) 0).to_world).z = 0 := by decide
    rw [hcx, hcz]
    have hdx : f32Div16 ((268435456 : Int) : ℚ) = ((16777216 : Int) : ℚ) := by
      rw [f32Div16, if_neg (by push_cast; norm_num)]
      push_cast
      norm_num
    have hdz : f32Div16 ((0 : Int) : ℚ) = ((0 : Int) : ℚ) := by
      rw [f32Div16, if_pos (by push_cast; norm_num)]
      rw [show ((0 : Int) : ℚ) * 2 ^ 149 / 16 = ((0 : Int) : ℚ) by push_cast; norm_num]
      rw [roundHalfEvenInt_intCast]
      push_cast
      norm_num
    rw [hdx, hdz, Int.floor_intCast, Int.floor_intCast]
    rw [ChunkPos.new]
    norm_num
  · decide

/-- C8 (amended): for every `ChunkPos` whose coordinates are at most `2^20`
in magnitude — so the world-origin coordinates, at most `2^24`, are exactly
representable in f32 — converting to the world origin with `to_world`,
casting to f32 and converting back with `from_world` yields the same
`ChunkPos`; and `from_world` yields that chunk for every world point
strictly inside the chunk's world-space footprint whose coordinates are
binary32 values dividing exactly by 16 (no subnormal rounding). -/
theorem chunkpos_roundtrip_amended (p : ChunkPos)
    (hx : p.x.natAbs ≤ 2 ^ 20) (hz : p.z.natAbs ≤ 2 ^ 20) :
    ChunkPos.from_world_f32 (V3.asFloat p.to_world) = p ∧
    ∀ w : WVec, IsExactF32Div16 w.x → IsExactF32Div16 w.z →
      ((p.to_world.x : Int) : ℚ) < w.x →
      w.x < ((p.to_world.x + (CHUNK_WIDTH : Int) : Int) : ℚ) →
      ((p.to_world.z : Int) : ℚ) < w.z →
      w.z < ((p.to_world.z + (CHUNK_DEPTH : Int) : Int) : ℚ) →
      ChunkPos.from_world_f32 w = p := by
  have h16 : (0 : ℚ) < 16 := by norm_num
  have hxw : ((p.to_world.x : Int) : ℚ) = 16 * (p.x : ℚ) := by
    simp only [ChunkPos.to_world]
    push_cast [CHUNK_WIDTH]
    ring
  have hzw : ((p.to_world.z : Int) : ℚ) = 16 * (p.z : ℚ) := by
    simp only [ChunkPos.to_world]
    push_cast [CHUNK_DEPTH]
    ring
  constructor
  · have hcx : f32OfInt p.to_world.x = p.to_world.x := by
      rw [f32OfInt, if_pos ?_]
      show (p.x * ((CHUNK_WIDTH : Nat) : Int)).natAbs ≤ 2 ^ 24
      rw [Int.natAbs_mul]
      have h16n : ((CHUNK_WIDTH : Nat) : Int).natAbs = 16 := rfl
      rw [h16n]
      have h20 : (2 : Nat) ^ 20 = 1048576 := by norm_num
      have h24 : (2 : Nat) ^ 24 = 16777216 := by norm_num
      rw [h24]
      rw [h20] at hx
      omega
    have hcz : f32OfInt p.to_world.z = p.to_world.z := by
      rw [f32OfInt, if_pos ?_]
      show (p.z * ((CHUNK_DEPTH : Nat) : Int)).natAbs ≤ 2 ^ 24
      rw [Int.natAbs_mul]
      have h16n : ((CHUNK_DEPTH : Nat) : Int).natAbs = 16 := rfl
      rw [h16n]
      have h20 : (2 : Nat) ^ 20 = 1048576 := by norm_num
      have h24 : (2 : Nat) ^ 24 = 16777216 := by norm_num
      rw [h24]
      rw [h20] at hz
      omega
    have hex : IsExactF32Div16 ((p.to_world.x : Int) : ℚ) := by
      refine ⟨p.x, 149, ?_, ?_⟩
      · have h20 : (2 : Nat) ^ 20 = 1048576 := by norm_num
        rw [h20] at hx
        rw [show ((2 : Int) ^ 24) = 16777216 by norm_num]
        rw [Int.abs_eq_natAbs]
        omega
      · rw [hxw]
        push_cast
        ring_nf
    have hez : IsExactF32Div16 ((p.to_world.z : Int) : ℚ) := by
      refine ⟨p.z, 149, ?_, ?_⟩
      · have h20 : (2 : Nat) ^ 20 = 1048576 := by norm_num
        rw [h20] at hz
        rw [show ((2 : Int) ^ 24) = 16777216 by norm_num]
        rw [Int.abs_eq_natAbs]
        omega
      · rw [hzw]
        push_cast
        ring_nf
    show ChunkPos.mk
        ⌊f32Div16 ((f32OfInt p.to_world.x : Int) : ℚ)⌋
        ⌊f32Div16 ((f32OfInt p.to_world.z : Int) : ℚ)⌋ = p
    rw [hcx, hcz, f32Div16_exact _ hex, f32Div16_exact _ hez]
    have hqx : ((p.to_world.x : Int) : ℚ) / 16 = (p.x : ℚ) := by
      rw [hxw]
      ring_nf
    have hqz : ((p.to_world.z : Int) : ℚ) / 16 = (p.z : ℚ) := by
      rw [hzw]
      ring_nf
    rw [hqx, hqz, Int.floor_intCast, Int.floor_intCast]
  · intro w hex hez hx1 hx2 hz1 hz2
    have hx2' : w.x < 16 * ((p.x : ℚ) + 1) := by
      have heq : ((p.to_world.x + (CHUNK_WIDTH : Int) : Int) : ℚ) = 16 * ((p.x : ℚ) + 1) := by
        push_cast [CHUNK_WIDTH] at hxw ⊢
        linarith [hxw]
      rw [heq] at hx2
      exact hx2
    have hz2' : w.z < 16 * ((p.z : ℚ) + 1) := by
      have heq : ((p.to_world.z + (CHUNK_DEPTH : Int) : Int) : ℚ) = 16 * ((p.z : ℚ) + 1) := by
        push_cast [CHUNK_DEPTH] at hzw ⊢
        linarith [hzw]
      rw [heq] at hz2
      exact hz2
    rw [hxw] at hx1
    rw [hzw] at hz1
    show ChunkPos.mk ⌊f32Div16 w.x⌋ ⌊f32Div16 w.z⌋ = p
    rw [f32Div16_exact _ hex, f32Div16_exact _ hez]
    have hfx : ⌊w.x / (16 : ℚ)⌋ = p.x := by
      rw [Int.floor_eq_iff]
      constructor
      · exact le_of_lt ((lt_div_iff₀ h16).mpr (by linarith))
      · exact (div_lt_iff₀ h16).mpr (by linarith)
    have hfz : ⌊w.z / (16 : ℚ)⌋ = p.z := by
      rw [Int.floor_eq_iff]
      constructor
      · exact le_of_lt ((lt_div_iff₀ h16).mpr (by linarith))
      · exact (div_lt_iff₀ h16).mpr (by linarith)
    rw [hfx, hfz]

/-- Witness for C8 (amended): the round trip at the origin chunk, the
magnitude hypotheses discharged by `decide`. -/
theorem chunkpos_roundtrip_amended_witness :
    ChunkPos.from_world_f32 (V3.asFloat (ChunkPos.new 0 0).to_world) =
      ChunkPos.new 0 0 :=
  (chunkpos_roundtrip_amended (ChunkPos.new 0 0) (by decide) (by decide)).1

/-! ### C2: face emission in `Chunk::generate` -/

/-- C2: in `generate`, for every cell and each of the six directions, a quad
is emitted for that cell's face in that direction iff the neighbour position
`local + direction` is out of the local chunk bounds; every emitted quad
arises this way (no other visibility test), and `is_pos_in_bounds` holds
exactly on `[0, width) × [0, height) × [0, depth)`. -/
theorem generate_face_emission (pos : ChunkPos) (index : Nat)
    (h : index < TOTAL_CHUNK_SIZE) :
    (∀ dir : Direction,
      Quad.new (blockAt index) dir (translationOf pos index) ∈ visibleQuads pos index ↔
        Chunk.is_pos_in_bounds (localPosOf index + dir.normalized) = false) ∧
    (∀ q ∈ visibleQuads pos index,
      Chunk.is_pos_in_bounds (localPosOf index + q.dir.normalized) = false ∧
      q = Quad.new (blockAt index) q.dir (translationOf pos index)) ∧
    (∀ v : V3, Chunk.is_pos_in_bounds v = true ↔
      0 ≤ v.x ∧ v.x < (CHUNK_WIDTH : Int) ∧ 0 ≤ v.y ∧ v.y < (CHUNK_HEIGHT : Int) ∧
      0 ≤ v.z ∧ v.z < (CHUNK_DEPTH : Int)) := by
  refine ⟨fun dir => ?_, fun q hq => ?_, fun v => ?_⟩
  · constructor
    · intro hmem
      obtain ⟨d, _, hfd⟩ := List.mem_filterMap.mp hmem
      by_cases hb : Chunk.is_pos_in_bounds (localPosOf index + d.normalized) = true
      · simp [hb] at hfd
      · simp only [Bool.not_eq_true] at hb
        simp only [hb, Bool.false_eq_true, if_false, Option.some.injEq] at hfd
        have hd : d = dir := congrArg Quad.dir hfd
        rw [hd] at hb
        exact hb
    · intro hb
      refine List.mem_filterMap.mpr ⟨dir, by cases dir <;> decide, ?_⟩
      simp [hb]
  · obtain ⟨d, _, hfd⟩ := List.mem_filterMap.mp hq
    by_cases hb : Chunk.is_pos_in_bounds (localPosOf index + d.normalized) = true
    · simp [hb] at hfd
    · simp only [Bool.not_eq_true] at hb
      simp only [hb, Bool.false_eq_true, if_false, Option.some.injEq] at hfd
      have hd : q.dir = d := (congrArg Quad.dir hfd).symm
      rw [hd]
      exact ⟨hb, hfd.symm⟩
  · constructor
    · intro hb
      by_cases h0 : 0 ≤ v.x ∧ 0 ≤ v.y ∧ 0 ≤ v.z
      · rw [Chunk.is_pos_in_bounds, if_pos h0] at hb
        simp only [Bool.and_eq_true, decide_eq_true_eq] at hb
        exact ⟨h0.1, hb.1.1, h0.2.1, hb.1.2, h0.2.2, hb.2⟩
      · rw [Chunk.is_pos_in_bounds, if_neg h0] at hb
        exact absurd hb (by simp)
    · intro ⟨h1, h2, h3, h4, h5, h6⟩
      rw [Chunk.is_pos_in_bounds, if_pos ⟨h1, h3, h5⟩]
      simp only [Bool.and_eq_true, decide_eq_true_eq]
      exact ⟨⟨h2, h4⟩, h6⟩

/-- Witness for C2 at the origin cell of the origin chunk: the hypothesis
`0 < TOTAL_CHUNK_SIZE` is discharged by `decide`, and the downward face of
cell 0 (whose neighbour y = -1 is out of bounds) is emitted. -/
theorem generate_face_emission_witness :
    Quad.new (blockAt 0) Direction.Down (translationOf (ChunkPos.new 0 0) 0) ∈
      visibleQuads (ChunkPos.new 0 0) 0 :=
  ((generate_face_emission (ChunkPos.new 0 0) 0 (by decide)).1 Direction.Down).mpr
    (by decide)

/-! ### Window enumeration lemmas -/

/-- Membership in the inclusive integer range. -/
theorem mem_intRangeIncl (lo hi a : Int) :
    a ∈ intRangeIncl lo hi ↔ lo ≤ a ∧ a ≤ hi := by
  simp only [intRangeIncl, List.mem_map, List.mem_range]
  constructor
  · rintro ⟨i, hi', rfl⟩
    omega
  · intro ⟨h1, h2⟩
    exact ⟨(a - lo).toNat, by omega, by omega⟩

/-- The inclusive integer range has no duplicates. -/
theorem intRangeIncl_nodup (lo hi : Int) : (intRangeIncl lo hi).Nodup := by
  apply List.Nodup.map
  · intro a b hab
    simp only at hab
    omega
  · exact List.nodup_range _

/-- Membership in the `load_chunks` window enumeration. -/
theorem mem_windowList (c p : ChunkPos) :
    p ∈ windowList c ↔
      c.x - RENDER_DISTANCE / 2 ≤ p.x ∧ p.x ≤ c.x + RENDER_DISTANCE / 2 ∧
      c.z - RENDER_DISTANCE / 2 ≤ p.z ∧ p.z ≤ c.z + RENDER_DISTANCE / 2 := by
  simp only [windowList, List.mem_flatMap, List.mem_map, mem_intRangeIncl]
  constructor
  · rintro ⟨z, ⟨hz1, hz2⟩, x, ⟨hx1, hx2⟩, rfl⟩
    exact ⟨hx1, hx2, hz1, hz2⟩
  · intro ⟨hx1, hx2, hz1, hz2⟩
    exact ⟨p.z, ⟨hz1, hz2⟩, p.x, ⟨hx1, hx2⟩, rfl⟩

/-- The `load_chunks` window enumeration has no duplicates. -/
theorem windowList_nodup (c : ChunkPos) : (windowList c).Nodup := by
  rw [windowList, List.nodup_flatMap]
  refine ⟨fun z _ => List.Nodup.map ?_ (intRangeIncl_nodup _ _), ?_⟩
  · intro a b hab
    exact congrArg ChunkPos.x hab
  · have hpw : (intRangeIncl (c.z - RENDER_DISTANCE / 2) (c.z + RENDER_DISTANCE / 2)).Pairwise
        (fun a b => a ≠ b) := intRangeIncl_nodup _ _
    refine List.Pairwise.imp ?_ hpw
    intro a b hab
    intro q hqa hqb
    obtain ⟨xa, _, rfl⟩ := List.mem_map.mp hqa
    obtain ⟨xb, _, hq⟩ := List.mem_map.mp hqb
    exact hab (congrArg ChunkPos.z hq.symm)

/-- Membership in the `load_initial_chunks` enumeration. -/
theorem mem_initialWindowList (p : ChunkPos) :
    p ∈ initialWindowList ↔
      -RENDER_DISTANCE ≤ p.x ∧ p.x ≤ RENDER_DISTANCE ∧
      -RENDER_DISTANCE ≤ p.z ∧ p.z ≤ RENDER_DISTANCE := by
  simp only [initialWindowList, List.mem_flatMap, List.mem_map, mem_intRangeIncl]
  constructor
  · rintro ⟨x, ⟨hx1, hx2⟩, z, ⟨hz1, hz2⟩, rfl⟩
    exact ⟨hx1, hx2, hz1, hz2⟩
  · intro ⟨hx1, hx2, hz1, hz2⟩
    exact ⟨p.x, ⟨hx1, hx2⟩, p.z, ⟨hz1, hz2⟩, rfl⟩

/-- The `load_initial_chunks` enumeration has no duplicates. -/
theorem initialWindowList_nodup : initialWindowList.Nodup := by
  rw [initialWindowList, List.nodup_flatMap]
  refine ⟨fun x _ => List.Nodup.map ?_ (intRangeIncl_nodup _ _), ?_⟩
  · intro a b hab
    exact congrArg ChunkPos.z hab
  · have hpw : (intRangeIncl (-RENDER_DISTANCE) RENDER_DISTANCE).Pairwise
        (fun a b => a ≠ b) := intRangeIncl_nodup _ _
    refine List.Pairwise.imp ?_ hpw
    intro a b hab
    intro q hqa hqb
    obtain ⟨za, _, rfl⟩ := List.mem_map.mp hqa
    obtain ⟨zb, _, hq⟩ := List.mem_map.mp hqb
    exact hab (congrArg ChunkPos.x hq.symm)

/-- Folding `insert` over a list of positions: membership in the result. -/
theorem mem_foldl_insert (l : List ChunkPos) (t : Finset ChunkPos) (p : ChunkPos) :
    p ∈ l.foldl (fun t q => insert q t) t ↔ p ∈ t ∨ p ∈ l := by
  induction l generalizing t with
  | nil => simp
  | cons a l ih =>
    simp only [List.foldl_cons, ih, Finset.mem_insert, List.mem_cons]
    tauto

/-! ### C5: load_chunks -/

/-- C5: `load_chunks` considers exactly the inclusive square
`[center - R/2, center + R/2]` in x and z (integer division), generates one
chunk for each such position not already in the loaded-position set, skips
positions already present, and merges the new positions and chunks into the
state; positions outside the square are never generated. -/
theorem load_chunks_spec (player_pos : ChunkPos) (s : WorldState) :
    (∀ p : ChunkPos, p ∈ newPositions player_pos s ↔
      (player_pos.x - RENDER_DISTANCE / 2 ≤ p.x ∧
       p.x ≤ player_pos.x + RENDER_DISTANCE / 2 ∧
       player_pos.z - RENDER_DISTANCE / 2 ≤ p.z ∧
       p.z ≤ player_pos.z + RENDER_DISTANCE / 2) ∧ p ∉ s.chunks_pos) ∧
    ((s.load_chunks player_pos).chunks =
      s.chunks ++ (newPositions player_pos s).map Chunk.new) ∧
    (∀ p : ChunkPos, p ∈ (s.load_chunks player_pos).chunks_pos ↔
      p ∈ s.chunks_pos ∨ p ∈ newPositions player_pos s) := by
  refine ⟨fun p => ?_, rfl, fun p => mem_foldl_insert _ _ _⟩
  simp only [newPositions, List.mem_filter, mem_windowList, decide_eq_true_eq]

/-! ### C3: the initial load window -/

/-- C3 counterexample: the initial load and the `load_chunks` enumeration
are not the same window.  The position (3, 0) is loaded by the initial load
but lies outside the `load_chunks` square centered at the origin chunk. -/
theorem initial_window_differs_from_load_chunks :
    ChunkPos.new 3 0 ∈ WorldState.initial.chunks_pos ∧
    ChunkPos.new 3 0 ∉ windowList ChunkPos.ORIGIN := by
  constructor
  · decide
  · decide

/-- C3 (amended): the initial load at startup enumerates the inclusive
square `[-R, R] × [-R, R]` with `R = RENDER_DISTANCE` (side `2*R + 1`, a
larger window than the `[center - R/2, center + R/2]` square that
`load_chunks` uses), centered at the origin chunk, loading every position in
it exactly once. -/
theorem load_initial_chunks_window :
    ((WorldState.initial.chunks.map Chunk.pos).Nodup) ∧
    (∀ p : ChunkPos, p ∈ WorldState.initial.chunks_pos ↔
      -RENDER_DISTANCE ≤ p.x ∧ p.x ≤ RENDER_DISTANCE ∧
      -RENDER_DISTANCE ≤ p.z ∧ p.z ≤ RENDER_DISTANCE) ∧
    (∀ c ∈ WorldState.initial.chunks, c.loaded = true) := by
  refine ⟨?_, fun p => ?_, fun c hc => ?_⟩
  · have hcomp : Chunk.pos ∘ Chunk.new = id := rfl
    have : WorldState.initial.chunks.map Chunk.pos = initialWindowList := by
      show (([] : List Chunk) ++ initialWindowList.map Chunk.new).map Chunk.pos =
        initialWindowList
      rw [List.nil_append, List.map_map, hcomp, List.map_id]
    rw [this]
    exact initialWindowList_nodup
  · show p ∈ initialWindowList.foldl (fun t q => insert q t) ∅ ↔ _
    rw [mem_foldl_insert]
    simp [mem_initialWindowList]
  · simp only [WorldState.initial, WorldState.load_initial_chunks,
      List.nil_append, List.mem_map] at hc
    obtain ⟨p, _, rfl⟩ := hc
    rfl

/-! ### The fan-in fold of `Chunk::generate` -/

/-- The block component of one cell's fan-in step: unchanged when the cell
has no visible quads, otherwise `blocks[index] = block` (written once per
quad, idempotently). -/
theorem foldCell_fst (cell : Nat × List Quad × BlockId) (acc : List BlockId × List Vertex) :
    (foldCell acc cell).1 =
      if cell.2.1.isEmpty then acc.1 else acc.1.set cell.1 cell.2.2 := by
  obtain ⟨i, qs, b⟩ := cell
  induction qs generalizing acc with
  | nil => rfl
  | cons q qs ih =>
    show (foldCell (acc.1.set i b, acc.2 ++ q.vertices) (i, qs, b)).1 = _
    rw [ih]
    cases qs with
    | nil => simp
    | cons q' qs' => simp [List.set_set]

/-- The vertex component of one cell's fan-in step: the quads' vertices are
appended in quad order. -/
theorem foldCell_snd (cell : Nat × List Quad × BlockId) (acc : List BlockId × List Vertex) :
    (foldCell acc cell).2 = acc.2 ++ (cell.2.1.map Quad.vertices).flatten := by
  obtain ⟨i, qs, b⟩ := cell
  induction qs generalizing acc with
  | nil => simp [foldCell]
  | cons q qs ih =>
    show (foldCell (acc.1.set i b, acc.2 ++ q.vertices) (i, qs, b)).2 = _
    rw [ih]
    simp

/-- The fan-in step preserves the block-array length. -/
theorem foldCell_fst_length (cell : Nat × List Quad × BlockId)
    (acc : List BlockId × List Vertex) :
    (foldCell acc cell).1.length = acc.1.length := by
  rw [foldCell_fst]
  split
  · rfl
  · exact List.length_set _ _ _

/-- Folding the per-cell results over any index list: the vertex component
is the concatenation of the per-cell vertex contributions, in index-list
order. -/
theorem fold_generate_snd (pos : ChunkPos) (idxs : List Nat)
    (acc : List BlockId × List Vertex) :
    (idxs.foldl (fun a i => foldCell a (cellResult pos i)) acc).2 =
      acc.2 ++ (idxs.map (cellVertices pos)).flatten := by
  induction idxs generalizing acc with
  | nil => simp
  | cons i idxs ih =>
    rw [List.foldl_cons, ih, foldCell_snd]
    show acc.2 ++ ((visibleQuads pos i).map Quad.vertices).flatten ++ _ = _
    rw [List.map_cons, List.flatten_cons, List.append_assoc]
    rfl

/-- Folding the per-cell results preserves the block-array length. -/
theorem fold_generate_fst_length (pos : ChunkPos) (idxs : List Nat)
    (acc : List BlockId × List Vertex) :
    (idxs.foldl (fun a i => foldCell a (cellResult pos i)) acc).1.length =
      acc.1.length := by
  induction idxs generalizing acc with
  | nil => rfl
  | cons i idxs ih => rw [List.foldl_cons, ih, foldCell_fst_length]

/-- Folding the per-cell results over any index list: the block at position
`j` is the cell's block if `j` occurs in the list and cell `j` has at least
one visible quad, and is unchanged otherwise. -/
theorem fold_generate_fst_get (pos : ChunkPos) (idxs : List Nat)
    (acc : List BlockId × List Vertex) (j : Nat)
    (hidx : ∀ i ∈ idxs, i < acc.1.length) :
    (idxs.foldl (fun a i => foldCell a (cellResult pos i)) acc).1[j]? =
      if j ∈ idxs ∧ (visibleQuads pos j).isEmpty = false then some (blockAt j)
      else acc.1[j]? := by
  induction idxs generalizing acc with
  | nil => simp
  | cons i idxs ih =>
    rw [List.foldl_cons]
    rw [ih _ (fun i' hi' => by rw [foldCell_fst_length]; exact hidx i' (by simp [hi']))]
    by_cases hj : j ∈ idxs ∧ (visibleQuads pos j).isEmpty = false
    · rw [if_pos hj, if_pos ⟨by simp [hj.1], hj.2⟩]
    · rw [if_neg hj, foldCell_fst]
      show (if (visibleQuads pos i).isEmpty then acc.1 else acc.1.set i (blockAt i))[j]? = _
      by_cases hji : j = i
      · subst hji
        by_cases hq : (visibleQuads pos j).isEmpty
        · rw [if_pos hq, if_neg (by simp_all)]
        · rw [if_neg hq, if_pos ⟨by simp, by simp_all⟩]
          have hlt : j < acc.1.length := hidx j (by simp)
          simp [List.getElem?_set_self', hlt, hq]
      · have hset : (acc.1.set i (blockAt i))[j]? = acc.1[j]? :=
          List.getElem?_set_ne (fun hij => hji hij.symm)
        have hcond : ¬ (j ∈ i :: idxs ∧ (visibleQuads pos j).isEmpty = false) := by
          intro ⟨hmem, hne⟩
          rcases List.mem_cons.mp hmem with h | h
          · exact hji h
          · exact hj ⟨h, hne⟩
        rw [if_neg hcond]
        split
        · rfl
        · exact hset

/-- The topmost layer always has a visible quad: the upward neighbour
`y = CHUNK_HEIGHT` is out of bounds. -/
theorem top_layer_has_quads (pos : ChunkPos) (j : Nat)
    (hy : (j / CHUNK_WIDTH) % CHUNK_HEIGHT = CHUNK_HEIGHT - 1) :
    (visibleQuads pos j).isEmpty = false := by
  have hb : Chunk.is_pos_in_bounds (localPosOf j + Direction.Up.normalized) = false := by
    have h256 : ¬ ((localPosOf j + Direction.Up.normalized).y < (CHUNK_HEIGHT : Int)) := by
      show ¬ ((((j / CHUNK_WIDTH) % CHUNK_HEIGHT : Nat) : Int) + 1 < (CHUNK_HEIGHT : Int))
      rw [hy]
      simp [CHUNK_HEIGHT]
    rw [Chunk.is_pos_in_bounds]
    split
    · simp [h256]
    · rfl
  have hmem : Quad.new (blockAt j) Direction.Up (translationOf pos j) ∈
      visibleQuads pos j := by
    refine List.mem_filterMap.mpr ⟨Direction.Up, by decide, ?_⟩
    simp [hb]
  cases hq : visibleQuads pos j with
  | nil => rw [hq] at hmem; cases hmem
  | cons a l => rfl

/-! ### C6: the terrain rule of `Chunk::generate` -/

/-- The `generate` fold rewritten as a fold over the cell index range
(`List.foldl_map` instantiated; no evaluation involved). -/
theorem generateAcc_eq_fold (pos : ChunkPos) :
    generateAcc pos =
      (List.range TOTAL_CHUNK_SIZE).foldl (fun a i => foldCell a (cellResult pos i))
        (List.replicate TOTAL_CHUNK_SIZE BlockId.DIRT, []) :=
  List.foldl_map (cellResult pos) foldCell (List.range TOTAL_CHUNK_SIZE)
    (List.replicate TOTAL_CHUNK_SIZE BlockId.DIRT, [])

/-- Projection of `Chunk::generate`: the block array is the first component
of the fan-in fold. -/
theorem generate_blocks_eq (pos : ChunkPos) :
    (Chunk.generate pos).1 = (generateAcc pos).1 := by
  unfold Chunk.generate
  generalize generateAcc pos = A
  rfl

/-- Projection of `Chunk::generate`: the mesh vertices are the second
component of the fan-in fold. -/
theorem generate_vertices_eq (pos : ChunkPos) :
    (Chunk.generate pos).2.vertices = (generateAcc pos).2 := by
  unfold Chunk.generate
  generalize generateAcc pos = A
  rfl

/-- Projection of `Chunk::generate`: the mesh indices come from
`compute_cube_indices` applied to the final vertex count. -/
theorem generate_indices_eq (pos : ChunkPos) :
    (Chunk.generate pos).2.indices = compute_cube_indices (generateAcc pos).2.length := by
  unfold Chunk.generate
  generalize generateAcc pos = A
  rfl

/-- Projection of `Chunk::generate`: the stored element count is the index
count (`ChunkMesh::new`). -/
theorem generate_num_elements_eq (pos : ChunkPos) :
    (Chunk.generate pos).2.num_elements = (Chunk.generate pos).2.indices.length := by
  unfold Chunk.generate
  generalize generateAcc pos = A
  rfl

/-- C6: for every `ChunkPos`, the block array returned by `generate` has
one well-defined entry per cell (`width * height * depth` entries) and
assigns cell `(x, y, z)` the value GRASS when `y = height - 1` and DIRT
otherwise. -/
theorem generate_blocks_rule (pos : ChunkPos) (x y z : Nat)
    (hx : x < CHUNK_WIDTH) (hy : y < CHUNK_HEIGHT) (hz : z < CHUNK_DEPTH) :
    (Chunk.generate pos).1.length = TOTAL_CHUNK_SIZE ∧
    (Chunk.generate pos).1[compute_1d x y z]? =
      some (if y = CHUNK_HEIGHT - 1 then BlockId.GRASS else BlockId.DIRT) := by
  have hrw : (Chunk.generate pos).1 =
      ((List.range TOTAL_CHUNK_SIZE).foldl (fun a i => foldCell a (cellResult pos i))
        (List.replicate TOTAL_CHUNK_SIZE BlockId.DIRT, [])).1 := by
    rw [generate_blocks_eq, generateAcc_eq_fold]
  constructor
  · rw [hrw, fold_generate_fst_length]
    exact List.length_replicate _ _
  · have hj : compute_1d x y z < TOTAL_CHUNK_SIZE := by
      simp only [compute_1d, TOTAL_CHUNK_SIZE, CHUNK_WIDTH, CHUNK_HEIGHT,
        CHUNK_DEPTH] at *
      omega
    have hdecode : (compute_1d x y z / CHUNK_WIDTH) % CHUNK_HEIGHT = y := by
      simp only [compute_1d, CHUNK_WIDTH, CHUNK_HEIGHT, CHUNK_DEPTH] at *
      omega
    rw [hrw, fold_generate_fst_get]
    · by_cases hq : (visibleQuads pos (compute_1d x y z)).isEmpty = false
      · rw [if_pos ⟨List.mem_range.mpr hj, hq⟩]
        rw [blockAt, hdecode]
      · rw [if_neg (fun hc => hq hc.2)]
        have hyne : y ≠ CHUNK_HEIGHT - 1 := by
          intro hyy
          exact hq (top_layer_has_quads pos _ (by rw [hdecode, hyy]))
        rw [if_neg hyne]
        simp [List.getElem?_replicate, hj]
    · intro i hi
      rw [List.length_replicate]
      exact List.mem_range.mp hi

/-- Witness for C6 at the origin chunk, cell (0, 255, 0) on the top layer
(bounds hypotheses discharged by `decide`). -/
theorem generate_blocks_rule_witness :
    (Chunk.generate (ChunkPos.new 0 0)).1[compute_1d 0 255 0]? =
      some (if 255 = CHUNK_HEIGHT - 1 then BlockId.GRASS else BlockId.DIRT) :=
  (generate_blocks_rule (ChunkPos.new 0 0) 0 255 0 (by decide) (by decide)
    (by decide)).2

/-! ### C9: mesh count invariants -/

/-- Each cell contributes a multiple of four vertices (four per quad). -/
theorem cellVertices_length_mod (pos : ChunkPos) (i : Nat) :
    (cellVertices pos i).length % 4 = 0 := by
  rw [cellVertices]
  induction visibleQuads pos i with
  | nil => rfl
  | cons q qs ih =>
    rw [List.map_cons, List.flatten_cons, List.length_append]
    have h4 : q.vertices.length = 4 := rfl
    omega

/-- The vertex list built by `Chunk::generate` is the concatenation of the
per-cell contributions in ascending linear cell index. -/
theorem generate_vertices (pos : ChunkPos) :
    (Chunk.generate pos).2.vertices =
      ((List.range TOTAL_CHUNK_SIZE).map (cellVertices pos)).flatten := by
  rw [generate_vertices_eq, generateAcc_eq_fold, fold_generate_snd]
  exact List.nil_append _

/-- C9: for every `ChunkPos`, the mesh from `generate` has a vertex count
that is a multiple of 4, and its index array length is exactly
`6 * (vertex_count / 4)` (`indices_per_quad * number_of_quads`); the stored
element count equals the index array length. -/
theorem generate_mesh_counts (pos : ChunkPos) :
    (Chunk.generate pos).2.vertices.length % 4 = 0 ∧
    (Chunk.generate pos).2.indices.length =
      6 * ((Chunk.generate pos).2.vertices.length / 4) ∧
    (Chunk.generate pos).2.num_elements = (Chunk.generate pos).2.indices.length := by
  have hmod : (Chunk.generate pos).2.vertices.length % 4 = 0 := by
    rw [generate_vertices]
    generalize List.range TOTAL_CHUNK_SIZE = idxs
    induction idxs with
    | nil => rfl
    | cons i idxs ih =>
      rw [List.map_cons, List.flatten_cons, List.length_append]
      have := cellVertices_length_mod pos i
      omega
  refine ⟨hmod, ?_, generate_num_elements_eq pos⟩
  rw [generate_indices_eq, generate_vertices_eq, compute_cube_indices,
    List.length_map, List.length_range, Nat.mul_comm]

/-! ### C10: determinism of `Chunk::generate` -/

/-- C10: `generate` is a pure function of the chunk position — two calls at
the same position yield identical block arrays, vertex arrays and index
arrays — and the vertex array follows the fixed ascending-linear-cell-index
concatenation order (rayon's order-preserving `collect` makes the fan-in
independent of thread scheduling). -/
theorem generate_deterministic (pos : ChunkPos) :
    Chunk.generate pos = Chunk.generate pos ∧
    (Chunk.generate pos).2.vertices =
      ((List.range TOTAL_CHUNK_SIZE).map (cellVertices pos)).flatten :=
  ⟨rfl, generate_vertices pos⟩

/-! ### Streaming-state lemmas -/

/-- Folding a conditional `erase` over the chunk list: a position survives
iff it was in the set and no listed chunk satisfying the predicate sits at
that position. -/
theorem mem_foldl_erase (P : Chunk → Bool) (l : List Chunk) (t : Finset ChunkPos)
    (p : ChunkPos) :
    p ∈ l.foldl (fun t c => if P c then t.erase c.pos else t) t ↔
      p ∈ t ∧ ∀ c ∈ l, P c = true → c.pos ≠ p := by
  induction l generalizing t with
  | nil => simp
  | cons a l ih =>
    rw [List.foldl_cons]
    by_cases hP : P a = true
    · rw [if_pos hP, ih]
      simp only [Finset.mem_erase, List.mem_cons]
      constructor
      · rintro ⟨⟨hne, hmem⟩, hall⟩
        refine ⟨hmem, ?_⟩
        rintro c (rfl | hc) hPc
        · exact fun h => hne h.symm
        · exact hall c hc hPc
      · rintro ⟨hmem, hall⟩
        refine ⟨⟨fun h => hall a (Or.inl rfl) hP h.symm, hmem⟩, ?_⟩
        exact fun c hc hPc => hall c (Or.inr hc) hPc
    · rw [if_neg hP, ih]
      simp only [List.mem_cons]
      constructor
      · rintro ⟨hmem, hall⟩
        refine ⟨hmem, ?_⟩
        rintro c (rfl | hc) hPc
        · exact absurd hPc hP
        · exact hall c hc hPc
      · rintro ⟨hmem, hall⟩
        exact ⟨hmem, fun c hc hPc => hall c (Or.inr hc) hPc⟩

/-- The chunk list after the marking pass. -/
theorem evictFar_chunks (pc : ChunkPos) (s : WorldState) :
    (s.evictFar pc).chunks = s.chunks.map (markChunk pc) := rfl

/-- The loaded-position set after the marking pass. -/
theorem mem_evictFar_pos (pc : ChunkPos) (s : WorldState) (p : ChunkPos) :
    p ∈ (s.evictFar pc).chunks_pos ↔
      p ∈ s.chunks_pos ∧ ∀ c ∈ s.chunks, outOfRange pc c = true → c.pos ≠ p :=
  mem_foldl_erase _ _ _ _

/-- The loaded-position set after the eviction sweep. -/
theorem mem_unload_pos (s : WorldState) (p : ChunkPos) :
    p ∈ s.unload_chunks.chunks_pos ↔
      p ∈ s.chunks_pos ∧ ∀ c ∈ s.chunks, (!c.loaded) = true → c.pos ≠ p :=
  mem_foldl_erase _ _ _ _

/-- Marking never changes a chunk's position. -/
theorem markChunk_pos (pc : ChunkPos) (c : Chunk) : (markChunk pc c).pos = c.pos := by
  rw [markChunk]
  split
  · rfl
  · rfl

/-- Marking an out-of-range chunk clears its `loaded` flag. -/
theorem markChunk_far (pc : ChunkPos) (c : Chunk) (h : outOfRange pc c = true) :
    markChunk pc c = { c with loaded := false } := by
  rw [markChunk, if_pos h]

/-- Marking an in-range chunk is the identity. -/
theorem markChunk_not_far (pc : ChunkPos) (c : Chunk) (h : outOfRange pc c = false) :
    markChunk pc c = c := by
  rw [markChunk, if_neg (by simp [h])]

/-- The marking pass preserves the sequence of chunk positions. -/
theorem evictFar_map_pos (pc : ChunkPos) (s : WorldState) :
    (s.evictFar pc).chunks.map Chunk.pos = s.chunks.map Chunk.pos := by
  rw [evictFar_chunks, List.map_map]
  congr 1
  funext c
  exact markChunk_pos pc c

/-- Marking is the identity on a list of in-range chunks. -/
theorem map_markChunk_id (pc : ChunkPos) (l : List Chunk)
    (h : ∀ c ∈ l, outOfRange pc c = false) : l.map (markChunk pc) = l := by
  induction l with
  | nil => rfl
  | cons c l ih =>
    rw [List.map_cons, markChunk_not_far pc c (h c (List.mem_cons_self c l)),
      ih (fun c' hc' => h c' (List.mem_cons_of_mem c hc'))]

/-- The conditional erase fold does nothing on a list of in-range chunks. -/
theorem foldl_erase_no_fire (pc : ChunkPos) (l : List Chunk) (t : Finset ChunkPos)
    (h : ∀ c ∈ l, outOfRange pc c = false) :
    l.foldl (fun t c => if outOfRange pc c then t.erase c.pos else t) t = t := by
  induction l generalizing t with
  | nil => rfl
  | cons c l ih =>
    rw [List.foldl_cons, if_neg (by simp [h c (List.mem_cons_self c l)])]
    exact ih _ (fun c' hc' => h c' (List.mem_cons_of_mem c hc'))

/-- When no chunk is out of range, the marking pass leaves the state
untouched. -/
theorem evictFar_eq_self (pc : ChunkPos) (s : WorldState)
    (hnone : ∀ c ∈ s.chunks, outOfRange pc c = false) : s.evictFar pc = s := by
  obtain ⟨chunks, set⟩ := s
  show WorldState.mk (chunks.map (markChunk pc))
      (chunks.foldl (fun t c => if outOfRange pc c then t.erase c.pos else t) set) =
    WorldState.mk chunks set
  rw [map_markChunk_id pc chunks hnone, foldl_erase_no_fire pc chunks set hnone]

/-- Distinct list positions force distinct chunks. -/
theorem pos_inj (l : List Chunk) (hn : (l.map Chunk.pos).Nodup) :
    ∀ c ∈ l, ∀ c' ∈ l, c.pos = c'.pos → c = c' :=
  List.inj_on_of_nodup_map hn

/-- The positions loaded initially are exactly `initialWindowList`. -/
theorem initial_chunks_map_pos :
    WorldState.initial.chunks.map Chunk.pos = initialWindowList := by
  show (([] : List Chunk) ++ initialWindowList.map Chunk.new).map Chunk.pos = _
  rw [List.nil_append, List.map_map]
  have h : Chunk.pos ∘ Chunk.new = id := rfl
  rw [h, List.map_id]

/-- The initial state satisfies the streaming bookkeeping invariant. -/
theorem strongInv_initial : StrongInv WorldState.initial := by
  refine ⟨?_, ?_, ?_⟩
  · rw [initial_chunks_map_pos]
    exact initialWindowList_nodup
  · intro c hc
    simp only [WorldState.initial, WorldState.load_initial_chunks,
      List.nil_append, List.mem_map] at hc
    obtain ⟨p, _, rfl⟩ := hc
    rfl
  · apply Finset.ext
    intro p
    show p ∈ initialWindowList.foldl (fun t q => insert q t) ∅ ↔ _
    rw [mem_foldl_insert, List.mem_toFinset, initial_chunks_map_pos]
    simp

/-- Filtering the marked list down to loaded chunks keeps exactly the
in-range chunks (given all chunks were loaded). -/
theorem filter_loaded_map_mark (pc : ChunkPos) (l : List Chunk)
    (hl : ∀ c ∈ l, c.loaded = true) :
    (l.map (markChunk pc)).filter (fun c => c.loaded) =
      l.filter (fun c => !outOfRange pc c) := by
  induction l with
  | nil => rfl
  | cons c l ih =>
    have htail := ih (fun c' hc' => hl c' (List.mem_cons_of_mem c hc'))
    rw [List.map_cons, List.filter_cons, List.filter_cons]
    by_cases hfar : outOfRange pc c = true
    · rw [markChunk_far pc c hfar]
      simp only [hfar, Bool.not_true]
      rw [if_neg (by simp), if_neg (by simp)]
      exact htail
    · have hfar' : outOfRange pc c = false := by
        cases hv : outOfRange pc c
        · rfl
        · exact absurd hv hfar
      rw [markChunk_not_far pc c hfar']
      simp only [hfar', Bool.not_false]
      rw [if_pos (by simp [hl c (List.mem_cons_self c l)]),
        if_pos (by simp [hl c (List.mem_cons_self c l)])]
      rw [htail]

/-- Marking then sweeping preserves the bookkeeping invariant, and leaves
exactly the in-range chunks. -/
theorem strongInv_evict_unload (pc : ChunkPos) (s : WorldState) (h : StrongInv s) :
    StrongInv ((s.evictFar pc).unload_chunks) ∧
    ((s.evictFar pc).unload_chunks).chunks =
      s.chunks.filter (fun c => !outOfRange pc c) := by
  obtain ⟨hnd, hld, hset⟩ := h
  have hchunks : ((s.evictFar pc).unload_chunks).chunks =
      s.chunks.filter (fun c => !outOfRange pc c) := by
    show ((s.chunks.map (markChunk pc)).filter (fun c => c.loaded)) = _
    exact filter_loaded_map_mark pc s.chunks hld
  have hpos2 : ∀ p : ChunkPos, p ∈ ((s.evictFar pc).unload_chunks).chunks_pos ↔
      p ∈ ((s.evictFar pc).unload_chunks).chunks.map Chunk.pos := by
    intro p
    rw [mem_unload_pos, mem_evictFar_pos, hchunks]
    constructor
    · rintro ⟨⟨hp, hA⟩, _⟩
      rw [hset, List.mem_toFinset] at hp
      obtain ⟨c, hc, rfl⟩ := List.mem_map.mp hp
      have hcfar : outOfRange pc c = false := by
        cases hf : outOfRange pc c
        · rfl
        · exact absurd rfl (hA c hc hf)
      exact List.mem_map.mpr ⟨c, List.mem_filter.mpr ⟨hc, by simp [hcfar]⟩, rfl⟩
    · intro hp
      obtain ⟨c, hcf, rfl⟩ := List.mem_map.mp hp
      obtain ⟨hc, hfar'⟩ := List.mem_filter.mp hcf
      have hcfar : outOfRange pc c = false := by simpa using hfar'
      refine ⟨⟨?_, ?_⟩, ?_⟩
      · rw [hset, List.mem_toFinset]
        exact List.mem_map.mpr ⟨c, hc, rfl⟩
      · intro c' hc' hf' hpp
        have he : c' = c := pos_inj _ hnd c' hc' c hc hpp
        rw [he, hcfar] at hf'
        exact absurd hf' (by decide)
      · intro c' hc' hl' hpp
        rw [evictFar_chunks] at hc'
        obtain ⟨c₀, hc₀, rfl⟩ := List.mem_map.mp hc'
        rw [markChunk_pos] at hpp
        have he : c₀ = c := pos_inj _ hnd c₀ hc₀ c hc hpp
        rw [he, markChunk_not_far pc c hcfar] at hl'
        rw [hld c hc] at hl'
        exact absurd hl' (by decide)
  refine ⟨⟨?_, ?_, ?_⟩, hchunks⟩
  · rw [hchunks]
    exact hnd.sublist (List.Sublist.map Chunk.pos (List.filter_sublist s.chunks))
  · intro c hc
    rw [hchunks] at hc
    exact hld c (List.mem_filter.mp hc).1
  · apply Finset.ext
    intro p
    rw [hpos2 p, List.mem_toFinset]

/-- `load_chunks` preserves the bookkeeping invariant. -/
theorem strongInv_load_chunks (pc : ChunkPos) (s : WorldState) (h : StrongInv s) :
    StrongInv (s.load_chunks pc) := by
  obtain ⟨hnd, hld, hset⟩ := h
  have hnew_sub : ∀ p ∈ newPositions pc s, p ∉ s.chunks_pos := by
    intro p hp
    have := (List.mem_filter.mp hp).2
    simpa using this
  have hmap : (s.load_chunks pc).chunks.map Chunk.pos =
      s.chunks.map Chunk.pos ++ newPositions pc s := by
    show (s.chunks ++ (newPositions pc s).map Chunk.new).map Chunk.pos = _
    rw [List.map_append, List.map_map]
    have hcomp : Chunk.pos ∘ Chunk.new = id := rfl
    rw [hcomp, List.map_id]
  refine ⟨?_, ?_, ?_⟩
  · rw [hmap, List.nodup_append]
    refine ⟨hnd, (windowList_nodup pc).filter _, ?_⟩
    intro a ha hanew
    have hin : a ∈ s.chunks_pos := by
      rw [hset, List.mem_toFinset]
      exact ha
    exact hnew_sub a hanew hin
  · intro c hc
    rcases List.mem_append.mp hc with hc | hc
    · exact hld c hc
    · obtain ⟨p, _, rfl⟩ := List.mem_map.mp hc
      rfl
  · apply Finset.ext
    intro p
    show p ∈ (newPositions pc s).foldl (fun t q => insert q t) s.chunks_pos ↔ _
    rw [mem_foldl_insert, List.mem_toFinset, hmap, List.mem_append, hset,
      List.mem_toFinset]

/-- `on_update` unfolded. -/
theorem on_update_eq (w : WVec) (s : WorldState) :
    s.on_update w =
      if s.chunks.any (outOfRange (ChunkPos.from_world w)) then
        ((s.evictFar (ChunkPos.from_world w)).unload_chunks).load_chunks
          (ChunkPos.from_world w)
      else s.evictFar (ChunkPos.from_world w) := rfl

/-- `on_update` preserves the bookkeeping invariant. -/
theorem strongInv_on_update (s : WorldState) (h : StrongInv s) (w : WVec) :
    StrongInv (s.on_update w) := by
  by_cases hd : s.chunks.any (outOfRange (ChunkPos.from_world w)) = true
  · rw [on_update_eq, if_pos hd]
    exact strongInv_load_chunks _ _ (strongInv_evict_unload _ _ h).1
  · rw [on_update_eq, if_neg hd]
    have hfa : s.chunks.any (outOfRange (ChunkPos.from_world w)) = false := by
      cases hv : s.chunks.any (outOfRange (ChunkPos.from_world w))
      · rfl
      · exact absurd hv hd
    have hnone : ∀ c ∈ s.chunks, outOfRange (ChunkPos.from_world w) c = false := by
      simpa [List.any_eq_false] using hfa
    rw [evictFar_eq_self _ _ hnone]
    exact h

/-- In a list with pairwise-distinct positions, exactly one chunk sits at
any listed position. -/
theorem filter_pos_eq_one (l : List Chunk) (p : ChunkPos)
    (hn : (l.map Chunk.pos).Nodup) (hp : p ∈ l.map Chunk.pos) :
    (l.filter (fun c => decide (c.pos = p))).length = 1 := by
  induction l with
  | nil => simp at hp
  | cons c l ih =>
    rw [List.map_cons] at hn hp
    rw [List.filter_cons]
    by_cases hcp : c.pos = p
    · rw [if_pos (by simpa using hcp)]
      have hnil : l.filter (fun c => decide (c.pos = p)) = [] := by
        rw [List.filter_eq_nil_iff]
        intro c' hc'
        simp only [decide_eq_true_eq]
        intro hcp'
        have : c.pos ∈ l.map Chunk.pos :=
          List.mem_map.mpr ⟨c', hc', by rw [hcp', hcp]⟩
        exact (List.nodup_cons.mp hn).1 this
      rw [hnil]
      rfl
    · rw [if_neg (by simpa using hcp)]
      rcases List.mem_cons.mp hp with h | h
      · exact absurd h.symm hcp
      · exact ih (List.nodup_cons.mp hn).2 h

/-- The bookkeeping invariant implies the spec's 1:1 correspondence. -/
theorem strongInv_syncInv (s : WorldState) (h : StrongInv s) : SyncInv s := by
  obtain ⟨hnd, hld, hset⟩ := h
  constructor
  · intro p hp
    rw [hset, List.mem_toFinset] at hp
    have hfe : s.chunks.filter (fun c => c.loaded && decide (c.pos = p)) =
        s.chunks.filter (fun c => decide (c.pos = p)) := by
      apply List.filter_congr
      intro c hc
      rw [hld c hc, Bool.true_and]
    rw [hfe]
    exact filter_pos_eq_one _ _ hnd hp
  · intro c hc _
    rw [hset, List.mem_toFinset]
    exact List.mem_map.mpr ⟨c, hc, rfl⟩

/-! ### C1: the streaming synchronization invariant -/

/-- C1: after the initial load and after every sequence of `on_update`
calls with arbitrary player world positions, the loaded-position set and
the chunk list are in 1:1 correspondence: every position in the set has
exactly one chunk with `loaded == true` at that position, and every loaded
chunk's position is in the set. -/
theorem streaming_sync_invariant :
    SyncInv WorldState.initial ∧
    ∀ updates : List WVec, SyncInv (applyUpdates updates WorldState.initial) := by
  have hstep : ∀ (updates : List WVec) (s : WorldState), StrongInv s →
      StrongInv (applyUpdates updates s) := by
    intro updates
    induction updates with
    | nil => exact fun s hs => hs
    | cons w ws ih => exact fun s hs => ih _ (strongInv_on_update s hs w)
  exact ⟨strongInv_syncInv _ strongInv_initial,
    fun updates => strongInv_syncInv _ (hstep updates _ strongInv_initial)⟩

/-! ### C4: eviction by squared chunk-grid distance -/

/-- C4: in `on_update`'s marking pass at the player's chunk position,
exactly those loaded chunks whose squared planar chunk-grid distance
(x and z `ChunkPos` deltas) strictly exceeds `RENDER_DISTANCE^2` are marked
`loaded = false` and have their position removed from the loaded-position
set; every chunk at squared distance at most `RENDER_DISTANCE^2` keeps
`loaded == true` and stays in the set. -/
theorem on_update_eviction (s : WorldState) (hinv : StrongInv s) (pc : ChunkPos) :
    (∀ c ∈ s.chunks,
      RENDER_DISTANCE * RENDER_DISTANCE <
          (c.pos - pc).x * (c.pos - pc).x + (c.pos - pc).z * (c.pos - pc).z →
        { c with loaded := false } ∈ (s.evictFar pc).chunks ∧
        c.pos ∉ (s.evictFar pc).chunks_pos) ∧
    (∀ c ∈ s.chunks,
      (c.pos - pc).x * (c.pos - pc).x + (c.pos - pc).z * (c.pos - pc).z ≤
          RENDER_DISTANCE * RENDER_DISTANCE →
        c ∈ (s.evictFar pc).chunks ∧ c.loaded = true ∧
        c.pos ∈ (s.evictFar pc).chunks_pos) := by
  obtain ⟨hnd, hld, hset⟩ := hinv
  constructor
  · intro c hc hdist
    have hfar : outOfRange pc c = true := by
      simp only [outOfRange, decide_eq_true_eq]
      exact hdist
    constructor
    · rw [evictFar_chunks]
      exact List.mem_map.mpr ⟨c, hc, markChunk_far pc c hfar⟩
    · rw [mem_evictFar_pos]
      rintro ⟨_, hall⟩
      exact hall c hc hfar rfl
  · intro c hc hdist
    have hfar : outOfRange pc c = false := by
      simp only [outOfRange, decide_eq_false_iff_not, not_lt]
      exact hdist
    refine ⟨?_, hld c hc, ?_⟩
    · rw [evictFar_chunks]
      exact List.mem_map.mpr ⟨c, hc, markChunk_not_far pc c hfar⟩
    · rw [mem_evictFar_pos]
      refine ⟨?_, ?_⟩
      · rw [hset, List.mem_toFinset]
        exact List.mem_map.mpr ⟨c, hc, rfl⟩
      · intro c' hc' hf' hpp
        have he : c' = c := pos_inj _ hnd c' hc' c hc hpp
        rw [he, hfar] at hf'
        exact absurd hf' (by decide)

/-- Witness for C4 on a two-chunk state: with the player at the origin
chunk, the chunk at (9, 0) (squared distance 81 > 16) is marked unloaded
and its position removed, as `on_update_eviction` applied at a concrete
state shows (the invariant and distance hypotheses discharged by
`decide`). -/
theorem on_update_eviction_witness :
    (⟨ChunkPos.new 9 0, false⟩ : Chunk) ∈
      ((⟨[⟨ChunkPos.new 0 0, true⟩, ⟨ChunkPos.new 9 0, true⟩],
        {ChunkPos.new 0 0, ChunkPos.new 9 0}⟩ : WorldState).evictFar
          (ChunkPos.new 0 0)).chunks ∧
    ChunkPos.new 9 0 ∉
      ((⟨[⟨ChunkPos.new 0 0, true⟩, ⟨ChunkPos.new 9 0, true⟩],
        {ChunkPos.new 0 0, ChunkPos.new 9 0}⟩ : WorldState).evictFar
          (ChunkPos.new 0 0)).chunks_pos :=
  (on_update_eviction
    ⟨[⟨ChunkPos.new 0 0, true⟩, ⟨ChunkPos.new 9 0, true⟩],
      {ChunkPos.new 0 0, ChunkPos.new 9 0}⟩ (by decide) (ChunkPos.new 0 0)).1
    ⟨ChunkPos.new 9 0, true⟩ (by decide) (by decide)

end VoxelEngine
